import Mathlib

/-!
Verification of the money-ts scaled-integer money library.

Shallow embedding of `src/currency.ts` and `src/money.ts` (the full
`Money` class, including `serializeObject` / `deserializeObject`,
`percentage` and the current `getAmount`).

Modelling conventions:
* JavaScript `bigint` is modelled by `Int`.  `bigint` division (`/`) and
  remainder (`%`) truncate toward zero, so they are modelled by
  `Int.tdiv` / `Int.tmod`.
* JavaScript `number` inputs (decimal amounts, multiplication factors,
  divisors, percentage values) are modelled by `ℚ`; `Math.round` rounds
  half toward positive infinity, modelled by `jsRound`.  Allocation
  ratios are JavaScript numbers used as integer weights; they are
  modelled by `Int` (the float-to-integer conversion
  `Math.round(ratio * 10^scale)` is exact for integers in the float-safe
  range).
* A thrown JavaScript exception is modelled by `Except.error` carrying a
  `MoneyError` value naming the throw site, including host-runtime
  errors: the `RangeError` thrown by `bigint` division by zero, the
  `RangeError` thrown by `Array(n)` for negative `n` in `split`, and the
  `TypeError` thrown when the remainder loop of `allocate` indexes past
  the end of the shares array.
-/

/-- Decidable equality for `Except`, used to evaluate the embedded
operations at concrete inputs. -/
instance exceptDecidableEq {ε α : Type} [DecidableEq ε] [DecidableEq α] :
    DecidableEq (Except ε α) := fun a b =>
  match a, b with
  | .ok x, .ok y =>
    if h : x = y then isTrue (by rw [h]) else isFalse (fun hcon => h (Except.ok.inj hcon))
  | .error e, .error f =>
    if h : e = f then isTrue (by rw [h]) else isFalse (fun hcon => h (Except.error.inj hcon))
  | .ok _, .error _ => isFalse (fun hcon => Except.noConfusion hcon)
  | .error _, .ok _ => isFalse (fun hcon => Except.noConfusion hcon)

/-- `Math.round` on a rational value: round half toward positive
infinity (`Math.round(0.5) = 1`, `Math.round(-0.5) = -0`). -/
def jsRound (x : ℚ) : Int := ⌊x + 1/2⌋

/-- The validated currency descriptor of `src/currency.ts`: code,
numeric code, display name and fraction-digit scale.  The constructor's
`defaultFractionDigits < 0` check is reflected by using `Nat`. -/
structure Currency where
  currencyCode : String
  numericCode : Int
  currencyName : String
  defaultFractionDigits : Nat
  deriving DecidableEq, Repr

/-- `Currency.is` of `src/currency.ts`, specialised to a `Currency`
argument (the only way the `Money` class calls it): code equality. -/
def Currency.is (a b : Currency) : Bool := a.currencyCode == b.currencyCode

/-- The process-wide currency registry, as loaded by
`Currency.loadIsoCurrencies`: each entry is stored under its code,
unmodified, as the map key. -/
abbrev CurrencyRegistry := List (String × Currency)

/-- `String.prototype.toUpperCase` for the ASCII range (currency codes
are ASCII). -/
def jsToUpper (s : String) : String :=
  ⟨s.data.map Char.toUpper⟩

/-- `Currency.of` of `src/currency.ts` for a string code: looks up
`currencyCode.toUpperCase()` in the registry; `none` models the thrown
`Unknown currency` error. -/
def Currency.ofCode (reg : CurrencyRegistry) (code : String) : Option Currency :=
  List.lookup (jsToUpper code) reg

/-- `RoundingMode` enumeration of `src/money.ts`. -/
inductive RoundingMode where
  | UP
  | DOWN
  | CEILING
  | FLOOR
  | HALF_UP
  | HALF_DOWN
  | HALF_EVEN
  deriving DecidableEq, Repr

/-- `PercentageFormat` enumeration of `src/money.ts`. -/
inductive PercentageFormat where
  | AS_DECIMAL
  | AS_PERCENTAGE
  deriving DecidableEq, Repr

/-- Errors thrown by the `Money` class, including the host-runtime
errors described in the module docstring. -/
inductive MoneyError where
  /-- `Cannot operate on Money with different currencies` -/
  | currencyMismatch
  /-- `Cannot allocate with an empty list of ratios.` -/
  | emptyRatios
  /-- `Cannot allocate with negative ratios.` -/
  | negativeRatios
  /-- `Cannot allocate to zero ratios.` -/
  | zeroRatios
  /-- host `RangeError: Division by zero` from `bigint` division -/
  | divisionByZero
  /-- host `RangeError: Invalid array length` from `Array(n)`, `n < 0` -/
  | invalidArrayLength
  /-- host `TypeError` when `allocate`'s loop reads `shares[i]` past the
  end of the array -/
  | undefinedShare
  /-- `Unknown currency` from `Currency.of` -/
  | unknownCurrency
  /-- host error from `BigInt(value.amount)` on a non-numeral string -/
  | invalidAmount
  deriving DecidableEq, Repr

/-- The `Money` value: amount in minor units (a `bigint`) paired with
its currency. -/
structure Money where
  amount : Int
  currency : Currency
  deriving DecidableEq, Repr

/-- `Money.ofMinor`: construct from a `bigint` minor-unit amount;
the `bigint` branch of the constructor, exact. -/
def Money.ofMinor (minorAmount : Int) (currency : Currency) : Money :=
  ⟨minorAmount, currency⟩

/-- `Money.of` / the `number | string` branch of the constructor:
`BigInt(Math.round(Number(amount) * 10^scale))`. -/
def Money.of (amount : ℚ) (currency : Currency) : Money :=
  ⟨jsRound (amount * 10 ^ currency.defaultFractionDigits), currency⟩

/-- `Money.zero` for a `Currency` argument: `new Money(0, c)`, and
`Math.round(0 * 10^scale) = 0`. -/
def Money.zero (currency : Currency) : Money :=
  ⟨0, currency⟩

/-- `Money.isZero`. -/
def Money.isZero (m : Money) : Bool := m.amount == 0

/-- `Money.isPositive`. -/
def Money.isPositive (m : Money) : Bool := 0 < m.amount

/-- `Money.isNegative`. -/
def Money.isNegative (m : Money) : Bool := m.amount < 0

/-- `Money.plus`: `assertSameCurrency` then exact integer addition. -/
def Money.plus (a other : Money) : Except MoneyError Money :=
  if a.currency.is other.currency then
    .ok ⟨a.amount + other.amount, a.currency⟩
  else
    .error .currencyMismatch

/-- `Money.minus`: `assertSameCurrency` then exact integer subtraction. -/
def Money.minus (a other : Money) : Except MoneyError Money :=
  if a.currency.is other.currency then
    .ok ⟨a.amount - other.amount, a.currency⟩
  else
    .error .currencyMismatch

/-- `toBigIntWithScale` of `src/money.ts`:
`BigInt(Math.round(Number(value) * 10^scale))`. -/
def toBigIntWithScale (value : ℚ) (scale : Nat) : Int :=
  jsRound (value * 10 ^ scale)

/-- `Money.multipliedBy`: scale the factor to an integer, multiply, then
truncate-divide by `10^scale` (`bigint` division truncates). -/
def Money.multipliedBy (m : Money) (factor : ℚ) : Money :=
  let scale := m.currency.defaultFractionDigits
  let factorScaled := toBigIntWithScale factor scale
  ⟨(m.amount * factorScaled).tdiv (10 ^ scale), m.currency⟩

/-- `Money.percentage`: `AS_PERCENTAGE` divides the value by 100 first,
then delegates to `multipliedBy`. -/
def Money.percentage (m : Money) (value : ℚ) (format : PercentageFormat) : Money :=
  match format with
  | .AS_PERCENTAGE => m.multipliedBy (value / 100)
  | .AS_DECIMAL => m.multipliedBy value

/-- `roundDiv` of `src/money.ts`: truncated `bigint` division of
`dividend` by `divisor` with the seven rounding policies.  `quotient`,
`remainder` and `halfDivisor` are `bigint` operations, hence
truncating.  The caller guarantees `divisor ≠ 0`. -/
def roundDiv (dividend divisor : Int) (roundingMode : RoundingMode) : Int :=
  let quotient := dividend.tdiv divisor
  let remainder := dividend.tmod divisor
  if remainder = 0 then quotient
  else
    let halfDivisor := divisor.tdiv 2
    match roundingMode with
    | .UP => quotient + 1
    | .DOWN => quotient
    | .CEILING => if 0 < dividend then quotient + 1 else quotient
    | .FLOOR => if dividend < 0 then quotient - 1 else quotient
    | .HALF_UP => if halfDivisor ≤ remainder then quotient + 1 else quotient
    | .HALF_DOWN => if halfDivisor < remainder then quotient + 1 else quotient
    | .HALF_EVEN =>
        if halfDivisor < remainder ∨ (remainder = halfDivisor ∧ quotient.tmod 2 ≠ 0) then
          quotient + 1
        else quotient

/-- `Money.dividedBy`: scale the dividend by `10^scale`, scale the
divisor to an integer at the same precision, then `roundDiv`.  A zero
scaled divisor makes the `bigint` division throw
`RangeError: Division by zero`, modelled as `.error .divisionByZero`. -/
def Money.dividedBy (m : Money) (divisor : ℚ) (roundingMode : RoundingMode) :
    Except MoneyError Money :=
  let scale := m.currency.defaultFractionDigits
  let divisorScaled := toBigIntWithScale divisor scale
  if divisorScaled = 0 then .error .divisionByZero
  else .ok ⟨roundDiv (m.amount * 10 ^ scale) divisorScaled roundingMode, m.currency⟩

/-- The share-summing `reduce` of `allocate`:
`shares.reduce((sum, share) => sum.plus(share), Money.zero(this.currency))`. -/
def sumShares (c : Currency) (shares : List Money) : Except MoneyError Money :=
  shares.foldlM (fun sum share => sum.plus share) (Money.zero c)

/-- The remainder-distribution loop of `allocate`:
`for (let i = 0; !remainder.isZero(); i++)` adds one minor unit to
`shares[i]` and subtracts one from the remainder.  When `i` runs past
the end of the array, `shares[i].plus` is a `TypeError` on `undefined`,
modelled as `.error .undefinedShare`. -/
def distributeShares (c : Currency) : List Money → Money → Except MoneyError (List Money)
  | shares, remainder =>
    if remainder.isZero then .ok shares
    else
      match shares with
      | [] => .error .undefinedShare
      | s :: rest =>
        match s.plus (Money.ofMinor 1 c), remainder.minus (Money.ofMinor 1 c) with
        | .ok s2, .ok rem2 =>
          match distributeShares c rest rem2 with
          | .ok out => .ok (s2 :: out)
          | .error e => .error e
        | .error e, _ => .error e
        | .ok _, .error e => .error e

/-- `Money.allocate` over `ratios: number[]` (so the ratio list is
`List ℚ`, fractional weights included): validate the ratio list,
compute each truncated share as
`multipliedBy(ratio).dividedBy(total, DOWN)`, then distribute the
remainder one minor unit at a time in list order. -/
def Money.allocate (m : Money) (ratios : List ℚ) : Except MoneyError (List Money) :=
  if ratios.length = 0 then .error .emptyRatios
  else if ratios.any (fun ratio => decide (ratio < 0)) then .error .negativeRatios
  else if ratios.any (fun ratio => decide (ratio = 0)) then .error .zeroRatios
  else
    let total : ℚ := ratios.foldl (fun sum ratio => sum + ratio) 0
    if total = 0 then .error .zeroRatios
    else
      match ratios.mapM
          (fun ratio => (m.multipliedBy ratio).dividedBy total RoundingMode.DOWN) with
      | .error e => .error e
      | .ok shares =>
        match sumShares m.currency shares with
        | .error e => .error e
        | .ok sum =>
          match m.minus sum with
          | .error e => .error e
          | .ok remainder => distributeShares m.currency shares remainder

/-- `Money.split`: `Array(parts).fill(1)` then `allocate` (the fill
value is the number `1`).  `Array(n)` throws
`RangeError: Invalid array length` for negative `n`, modelled as
`.error .invalidArrayLength`. -/
def Money.split (m : Money) (parts : Int) : Except MoneyError (List Money) :=
  if parts < 0 then .error .invalidArrayLength
  else m.allocate (List.replicate parts.toNat (1 : ℚ))

/-- `Money.equals`: amount equality and currency-code equality, never
throws. -/
def Money.equals (a other : Money) : Bool :=
  a.amount == other.amount && a.currency.is other.currency

/-- `Money.negated`: exact sign flip. -/
def Money.negated (m : Money) : Money :=
  ⟨m.amount * -1, m.currency⟩

/-- `Money.abs`: `this` if non-negative else `negated`. -/
def Money.abs (m : Money) : Money :=
  if m.isNegative then m.negated else m

/-! ### Decimal rendering and parsing

`bigint.toString()` renders the decimal digits with a leading `-` for
negative values; `BigInt(string)` parses them back.  `natToCharsAux`
uses explicit fuel so that it is structurally recursive. -/

/-- Big-endian decimal digit characters of a positive natural number;
`fuel` bounds the recursion depth (`fuel ≥ n` suffices). -/
def natToCharsAux : Nat → Nat → List Char
  | 0, _ => []
  | _ + 1, 0 => []
  | fuel + 1, n + 1 => natToCharsAux fuel ((n + 1) / 10) ++ [Nat.digitChar ((n + 1) % 10)]

/-- Decimal digit characters of a natural number, `"0"` for zero. -/
def natToChars (n : Nat) : List Char :=
  if n = 0 then ['0'] else natToCharsAux (n + 1) n

/-- `bigint.toString()`: decimal digits, `-`-prefixed when negative. -/
def bigintToString (i : Int) : String :=
  if i < 0 then ⟨'-' :: natToChars i.natAbs⟩ else ⟨natToChars i.natAbs⟩

/-- `String.prototype.padStart`: left-pad to `targetLength` with `pad`;
returns the string unchanged when it is already long enough. -/
def padStart (s : String) (targetLength : Nat) (pad : Char) : String :=
  if targetLength ≤ s.length then s
  else ⟨List.replicate (targetLength - s.length) pad ++ s.data⟩

/-- `Money.getAmount`: `integerPart.fractionalPart` with the absolute
fractional part zero-padded to the currency scale; no decimal point for
scale-0 currencies. -/
def Money.getAmount (m : Money) : String :=
  let scaleFactor : Int := 10 ^ m.currency.defaultFractionDigits
  let integerPart := m.amount.tdiv scaleFactor
  let fractionalPart := m.amount.tmod scaleFactor
  let absFractionalPart := if fractionalPart < 0 then -fractionalPart else fractionalPart
  if m.currency.defaultFractionDigits = 0 then bigintToString integerPart
  else
    bigintToString integerPart ++ "." ++
      padStart (bigintToString absFractionalPart) m.currency.defaultFractionDigits '0'

/-- Decimal digit value of a character, `none` for non-digits. -/
def charToDigit (c : Char) : Option Nat :=
  if '0' ≤ c ∧ c ≤ '9' then some (c.toNat - 48) else none

/-- Accumulating decimal parser over big-endian digit characters. -/
def parseDigitsAux : Nat → List Char → Option Nat
  | acc, [] => some acc
  | acc, c :: cs =>
    match charToDigit c with
    | some d => parseDigitsAux (acc * 10 + d) cs
    | none => none

/-- `BigInt(string)` on an optionally `-`-signed decimal numeral
(`BigInt("")` is `0n`); `none` models the host `SyntaxError` on other
inputs. -/
def parseBigInt (s : String) : Option Int :=
  match s.data with
  | [] => some 0
  | c :: cs =>
    if c = '-' then (parseDigitsAux 0 cs).map (fun n => -(n : Int))
    else (parseDigitsAux 0 (c :: cs)).map (fun n => (n : Int))

/-! ### Test-fixture currencies (from `tests/money-test.ts`) -/

/-- USD: two fraction digits. -/
def usd : Currency := ⟨"USD", 840, "US Dollar", 2⟩

/-- EUR: two fraction digits. -/
def eur : Currency := ⟨"EUR", 978, "Euro", 2⟩

/-- JPY: zero fraction digits. -/
def jpy : Currency := ⟨"JPY", 392, "Japanese Yen", 0⟩

/-- BHD: three fraction digits. -/
def bhd : Currency := ⟨"BHD", 48, "Bahraini Dinar", 3⟩

/-! ### Basic rewriting lemmas -/

theorem floor_one_half : ⌊(1/2 : ℚ)⌋ = 0 := by
  rw [Int.floor_eq_zero_iff]
  constructor <;> norm_num

theorem jsRound_intCast (k : Int) : jsRound (k : ℚ) = k := by
  unfold jsRound
  rw [Int.floor_int_add, floor_one_half, add_zero]

theorem toBigIntWithScale_intCast (k : Int) (scale : Nat) :
    toBigIntWithScale (k : ℚ) scale = k * 10 ^ scale := by
  unfold toBigIntWithScale
  rw [show ((k : ℚ) * 10 ^ scale) = ((k * 10 ^ scale : Int) : ℚ) by push_cast; ring,
    jsRound_intCast]

theorem multipliedBy_intCast (m : Money) (k : Int) :
    m.multipliedBy (k : ℚ) = ⟨m.amount * k, m.currency⟩ := by
  unfold Money.multipliedBy
  dsimp only
  rw [toBigIntWithScale_intCast, ← mul_assoc,
    Int.mul_tdiv_cancel _ (by positivity : (10 : Int) ^ m.currency.defaultFractionDigits ≠ 0)]

theorem roundDiv_DOWN (a b : Int) : roundDiv a b RoundingMode.DOWN = a.tdiv b := by
  unfold roundDiv
  dsimp only
  split <;> rfl

theorem currency_is_self (c : Currency) : c.is c = true := by
  simp [Currency.is]

theorem plus_same_currency (a b : Money) (h : a.currency = b.currency) :
    a.plus b = .ok ⟨a.amount + b.amount, a.currency⟩ := by
  unfold Money.plus
  rw [h, if_pos (currency_is_self _)]

theorem minus_same_currency (a b : Money) (h : a.currency = b.currency) :
    a.minus b = .ok ⟨a.amount - b.amount, a.currency⟩ := by
  unfold Money.minus
  rw [h, if_pos (currency_is_self _)]

theorem tmod_two_ne_zero_iff_odd (q : Int) : q.tmod 2 ≠ 0 ↔ Odd q := by
  rw [Ne, ← Int.dvd_iff_tmod_eq_zero, ← even_iff_two_dvd]
  exact Int.not_even_iff_odd

/-! ### Claim C2: the rounding step of `dividedBy` -/

/-- The rounding step exactly as the specification states it, for
truncated quotient `q`, remainder `r` and `half = d/2` (truncated
integer halving): `q` when `r = 0` regardless of mode; otherwise `q+1`
for UP; `q` for DOWN; `q+1` iff the dividend is positive for CEILING;
`q-1` iff the dividend is negative for FLOOR; `q+1` iff `r ≥ half` for
HALF_UP; `q+1` iff `r > half` for HALF_DOWN; and `q+1` iff `r > half`
or (`r = half` and `q` is odd) for HALF_EVEN. -/
def roundDivSpec (dividend divisor : Int) (mode : RoundingMode) : Int :=
  let q := dividend.tdiv divisor
  let r := dividend.tmod divisor
  let half := divisor.tdiv 2
  if r = 0 then q
  else
    match mode with
    | .UP => q + 1
    | .DOWN => q
    | .CEILING => if 0 < dividend then q + 1 else q
    | .FLOOR => if dividend < 0 then q - 1 else q
    | .HALF_UP => if half ≤ r then q + 1 else q
    | .HALF_DOWN => if half < r then q + 1 else q
    | .HALF_EVEN => if half < r ∨ (r = half ∧ Odd q) then q + 1 else q

/-- Claim C2: for every dividend and every non-zero divisor,
`roundDiv` returns exactly what the specification's rounding table
prescribes, mode by mode. -/
theorem claim_C2_roundDiv_follows_spec (dividend divisor : Int)
    (mode : RoundingMode) (hdiv : divisor ≠ 0) :
    roundDiv dividend divisor mode = roundDivSpec dividend divisor mode := by
  unfold roundDiv roundDivSpec
  simp only [tmod_two_ne_zero_iff_odd]

/-- Witness for C2 at dividend 7, divisor 2, HALF_EVEN. -/
theorem claim_C2_witness :
    (2 : Int) ≠ 0 ∧
      roundDiv 7 2 RoundingMode.HALF_EVEN = roundDivSpec 7 2 RoundingMode.HALF_EVEN :=
  ⟨by decide, claim_C2_roundDiv_follows_spec 7 2 RoundingMode.HALF_EVEN (by decide)⟩

/-! ### Claim C10: divisors that scale to zero -/

/-- Claim C10: for every Amount and every non-zero divisor whose value
scaled to the currency's fraction digits rounds to the integer zero
(e.g. `0.001` at scale 2), `dividedBy` fails with the division-by-zero
error instead of returning a quotient. -/
theorem claim_C10_small_divisor_division_by_zero (m : Money) (x : ℚ)
    (mode : RoundingMode) (hx : x ≠ 0)
    (hscaled : toBigIntWithScale x m.currency.defaultFractionDigits = 0) :
    m.dividedBy x mode = .error .divisionByZero := by
  unfold Money.dividedBy
  simp [hscaled]

/-- Witness for C10: `0.001` at scale 2 (USD). -/
theorem claim_C10_witness :
    (1/1000 : ℚ) ≠ 0 ∧
      (Money.ofMinor 100 usd).dividedBy (1/1000) RoundingMode.HALF_UP =
        .error .divisionByZero :=
  ⟨by norm_num,
    claim_C10_small_divisor_division_by_zero (Money.ofMinor 100 usd) (1/1000)
      RoundingMode.HALF_UP (by norm_num)
      (by
        unfold toBigIntWithScale jsRound
        rw [Int.floor_eq_zero_iff]
        constructor <;> norm_num [Money.ofMinor, usd])⟩

/-! ### Claim C8: plus then minus round-trips -/

/-- Claim C8: for Amounts of the same currency,
`a.plus(b).minus(b).equals(a)` holds. -/
theorem claim_C8_plus_minus_equals (a b : Money)
    (h : a.currency.is b.currency = true) :
    ∃ s d : Money, a.plus b = .ok s ∧ s.minus b = .ok d ∧ d.equals a = true := by
  refine ⟨⟨a.amount + b.amount, a.currency⟩, ⟨a.amount + b.amount - b.amount, a.currency⟩,
    ?_, ?_, ?_⟩
  · unfold Money.plus
    rw [if_pos h]
  · unfold Money.minus
    dsimp only
    rw [if_pos h]
  · unfold Money.equals
    dsimp only
    rw [Bool.and_eq_true]
    refine ⟨?_, currency_is_self _⟩
    simp

/-- Witness for C8 at `USD 10.50` and `USD 5.25`. -/
theorem claim_C8_witness :
    ∃ s d : Money,
      (Money.ofMinor 1050 usd).plus (Money.ofMinor 525 usd) = .ok s ∧
        s.minus (Money.ofMinor 525 usd) = .ok d ∧
        d.equals (Money.ofMinor 1050 usd) = true :=
  claim_C8_plus_minus_equals (Money.ofMinor 1050 usd) (Money.ofMinor 525 usd) (by decide)

/-! ### Integer-list sums (the `reduce` over ratios) -/

/-- The ratio-total `reduce((sum, ratio) => sum + ratio, 0)`. -/
def sumInts (l : List Int) : Int := l.foldl (fun sum ratio => sum + ratio) 0

theorem sumInts_def (l : List Int) :
    l.foldl (fun sum ratio => sum + ratio) 0 = sumInts l := rfl

theorem foldl_add_shift (l : List Int) (x : Int) :
    l.foldl (fun sum ratio => sum + ratio) x = x + sumInts l := by
  induction l generalizing x with
  | nil => simp [sumInts]
  | cons a l ih =>
    have hcons : sumInts (a :: l) = a + sumInts l := by
      show (a :: l).foldl (fun sum ratio => sum + ratio) 0 = a + sumInts l
      rw [List.foldl_cons, ih]
      ring
    rw [List.foldl_cons, ih, hcons]
    ring

theorem sumInts_cons (a : Int) (l : List Int) : sumInts (a :: l) = a + sumInts l := by
  show (a :: l).foldl (fun sum ratio => sum + ratio) 0 = a + sumInts l
  rw [List.foldl_cons, foldl_add_shift]
  ring

theorem sumInts_nil : sumInts [] = 0 := rfl

theorem sumInts_nonneg (l : List Int) (h : ∀ r ∈ l, 0 ≤ r) : 0 ≤ sumInts l := by
  induction l with
  | nil => simp [sumInts_nil]
  | cons a l ih =>
    rw [sumInts_cons]
    have := h a (List.mem_cons_self a l)
    have := ih (fun r hr => h r (List.mem_cons_of_mem a hr))
    omega

theorem sumInts_pos (l : List Int) (hne : l ≠ []) (h : ∀ r ∈ l, 0 < r) :
    0 < sumInts l := by
  cases l with
  | nil => exact absurd rfl hne
  | cons a l =>
    rw [sumInts_cons]
    have := h a (List.mem_cons_self a l)
    have := sumInts_nonneg l (fun r hr => le_of_lt (h r (List.mem_cons_of_mem a hr)))
    omega

/-! ### `dividedBy` and the allocation share formula -/

theorem dividedBy_intCast (m : Money) (k : Int) (mode : RoundingMode) (hk : k ≠ 0) :
    m.dividedBy (k : ℚ) mode =
      .ok ⟨roundDiv (m.amount * 10 ^ m.currency.defaultFractionDigits)
          (k * 10 ^ m.currency.defaultFractionDigits) mode, m.currency⟩ := by
  unfold Money.dividedBy
  dsimp only
  rw [toBigIntWithScale_intCast,
    if_neg (mul_ne_zero hk (by positivity : (10 : Int) ^ m.currency.defaultFractionDigits ≠ 0))]

/-- Each truncated allocation share
`multipliedBy(ratio).dividedBy(total, DOWN)` of a non-negative amount
is the floor `(amount * ratio) / total`. -/
theorem allocShare_eq (m : Money) (r total : Int) (hA : 0 ≤ m.amount)
    (hr : 0 ≤ r) (ht : 0 < total) :
    (m.multipliedBy (r : ℚ)).dividedBy (total : ℚ) RoundingMode.DOWN =
      .ok ⟨(m.amount * r) / total, m.currency⟩ := by
  rw [multipliedBy_intCast, dividedBy_intCast _ _ _ (ne_of_gt ht)]
  dsimp only
  rw [roundDiv_DOWN]
  have hK : (0 : Int) < 10 ^ m.currency.defaultFractionDigits := by positivity
  rw [Int.tdiv_eq_ediv (by positivity) (by positivity),
    Int.mul_ediv_mul_of_pos_left _ _ hK]

/-! ### `mapM` over `Except` -/

theorem mapM_ok_of_forall {α β : Type} (f : α → Except MoneyError β) (g : α → β)
    (l : List α) (h : ∀ x ∈ l, f x = .ok (g x)) : l.mapM f = .ok (l.map g) := by
  induction l with
  | nil => rfl
  | cons a l ih =>
    rw [List.mapM_cons, h a (List.mem_cons_self a l),
      ih (fun x hx => h x (List.mem_cons_of_mem a hx))]
    rfl

theorem mapM_map_ok_of_forall {α β γ : Type} (c : α → β) (f : β → Except MoneyError γ)
    (g : α → γ) (l : List α) (h : ∀ x ∈ l, f (c x) = .ok (g x)) :
    (l.map c).mapM f = .ok (l.map g) := by
  induction l with
  | nil => rfl
  | cons a l ih =>
    rw [List.map_cons, List.mapM_cons, h a (List.mem_cons_self a l),
      ih (fun x hx => h x (List.mem_cons_of_mem a hx))]
    rfl

/-- Summing the rational casts of an integer list is the cast of the
integer sum (the ratio total computed by `allocate` for integer
weights). -/
theorem foldl_rat_intCast (l : List Int) : ∀ x : Int,
    (l.map (fun (k : Int) => (k : ℚ))).foldl (fun sum ratio => sum + ratio) (x : ℚ) =
      ((l.foldl (fun sum ratio => sum + ratio) x : Int) : ℚ) := by
  induction l with
  | nil => intro x; rfl
  | cons a l ih =>
    intro x
    rw [List.map_cons, List.foldl_cons, List.foldl_cons,
      show ((x : ℚ) + (a : ℚ)) = ((x + a : Int) : ℚ) by push_cast; ring]
    exact ih (x + a)

theorem foldl_rat_intCast_zero (l : List Int) :
    (l.map (fun (k : Int) => (k : ℚ))).foldl (fun sum ratio => sum + ratio) 0 =
      ((sumInts l : Int) : ℚ) := by
  rw [show (0 : ℚ) = ((0 : Int) : ℚ) by norm_num]
  exact foldl_rat_intCast l 0

/-- A list of rationals that are all integral is the cast image of an
integer list. -/
theorem list_eq_map_intCast (ratios : List ℚ)
    (h : ∀ r ∈ ratios, ∃ k : Int, r = (k : ℚ)) :
    ∃ l : List Int, ratios = l.map (fun (k : Int) => (k : ℚ)) := by
  induction ratios with
  | nil => exact ⟨[], rfl⟩
  | cons r rs ih =>
    obtain ⟨k, hk⟩ := h r (List.mem_cons_self r rs)
    obtain ⟨l, hl⟩ := ih (fun x hx => h x (List.mem_cons_of_mem r hx))
    exact ⟨k :: l, by rw [List.map_cons, ← hk, ← hl]⟩

theorem mapM_ok_mem {α β : Type} (f : α → Except MoneyError β) (l : List α)
    (out : List β) (h : l.mapM f = .ok out) : ∀ y ∈ out, ∃ x ∈ l, f x = .ok y := by
  induction l generalizing out with
  | nil =>
    simp only [List.mapM_nil] at h
    cases h
    simp
  | cons a l ih =>
    rw [List.mapM_cons] at h
    match ha : f a with
    | .error e => rw [ha] at h; exact absurd h (by simp [Bind.bind, Except.bind])
    | .ok b =>
      rw [ha] at h
      match hl : l.mapM f with
      | .error e => rw [hl] at h; exact absurd h (by simp [Bind.bind, Except.bind])
      | .ok bs =>
        rw [hl] at h
        simp only [Bind.bind, Except.bind, pure, Except.pure, Except.ok.injEq] at h
        subst h
        intro y hy
        rcases List.mem_cons.mp hy with hy | hy
        · exact ⟨a, List.mem_cons_self a l, by rw [ha, hy]⟩
        · obtain ⟨x, hx, hfx⟩ := ih bs hl y hy
          exact ⟨x, List.mem_cons_of_mem a hx, hfx⟩

/-! ### Summing shares and distributing the remainder -/

theorem foldlM_plus_ok (c : Currency) (shares : List Money)
    (hc : ∀ s ∈ shares, s.currency = c) (x : Int) :
    List.foldlM (fun sum share => sum.plus share) (⟨x, c⟩ : Money) shares =
      .ok ⟨x + sumInts (shares.map Money.amount), c⟩ := by
  induction shares generalizing x with
  | nil => simp [List.foldlM_nil, sumInts_nil, pure, Except.pure]
  | cons s rest ih =>
    rw [List.foldlM_cons,
      plus_same_currency _ _ (by exact (hc s (List.mem_cons_self s rest)).symm)]
    have hbind :
        (Except.ok (⟨x + s.amount, c⟩ : Money) >>= fun init =>
          List.foldlM (fun sum share => sum.plus share) init rest) =
          List.foldlM (fun sum share => sum.plus share) (⟨x + s.amount, c⟩ : Money) rest := rfl
    rw [hbind, ih (fun t ht => hc t (List.mem_cons_of_mem s ht))]
    rw [List.map_cons, sumInts_cons]
    congr 2
    ring

theorem sumShares_ok (c : Currency) (shares : List Money)
    (hc : ∀ s ∈ shares, s.currency = c) :
    sumShares c shares = .ok ⟨sumInts (shares.map Money.amount), c⟩ := by
  unfold sumShares Money.zero
  rw [foldlM_plus_ok c shares hc 0, zero_add]

/-- Full characterisation of the remainder-distribution loop when the
remainder is between 0 and the number of shares: it succeeds, keeps the
length and the currencies, adds the remainder to the total, and adds
exactly one minor unit to each share with index below the remainder. -/
theorem distributeShares_ok (c : Currency) (shares : List Money) (R : Int)
    (hc : ∀ s ∈ shares, s.currency = c) (h0 : 0 ≤ R)
    (hlen : R ≤ (shares.length : Int)) :
    ∃ out, distributeShares c shares ⟨R, c⟩ = .ok out ∧
      out.length = shares.length ∧
      (∀ s ∈ out, s.currency = c) ∧
      sumInts (out.map Money.amount) = sumInts (shares.map Money.amount) + R ∧
      ∀ i (hi : i < out.length) (hi2 : i < shares.length),
        (out.get ⟨i, hi⟩).amount =
          (shares.get ⟨i, hi2⟩).amount + (if (i : Int) < R then 1 else 0) := by
  induction shares generalizing R with
  | nil =>
    have hR : R = 0 := by simp at hlen; omega
    subst hR
    refine ⟨[], ?_, rfl, by simp, by simp, by simp⟩
    unfold distributeShares
    simp [Money.isZero]
  | cons s rest ih =>
    by_cases hR : R = 0
    · subst hR
      refine ⟨s :: rest, ?_, rfl, hc, by simp, ?_⟩
      · unfold distributeShares
        simp [Money.isZero]
      · intro i hi hi2
        simp only [if_neg (by omega : ¬((i : Int) < 0)), add_zero]
    · have hs : s.currency = c := hc s (List.mem_cons_self s rest)
      have hrec := ih (R - 1) (fun t ht => hc t (List.mem_cons_of_mem s ht))
        (by omega) (by simp at hlen ⊢; omega)
      obtain ⟨out', hout', hlen', hc', hsum', hpos'⟩ := hrec
      refine ⟨⟨s.amount + 1, c⟩ :: out', ?_, by simp [hlen'], ?_, ?_, ?_⟩
      · unfold distributeShares
        rw [if_neg (by simp [Money.isZero]; omega)]
        dsimp only
        simp only [Money.ofMinor]
        rw [plus_same_currency s ⟨1, c⟩ hs, minus_same_currency ⟨R, c⟩ ⟨1, c⟩ rfl]
        dsimp only
        rw [hs]
        rw [show (R - 1 : Int) = R - 1 from rfl] at hout'
        rw [hout']
      · intro t ht
        rcases List.mem_cons.mp ht with ht | ht
        · rw [ht]
        · exact hc' t ht
      · rw [List.map_cons, sumInts_cons, hsum', List.map_cons, sumInts_cons]
        ring
      · intro i hi hi2
        match i with
        | 0 =>
          simp only [List.get]
          rw [if_pos (by omega : ((0 : Nat) : Int) < R)]
        | j + 1 =>
          simp only [List.get]
          have := hpos' j (by simp at hi; omega) (by simp at hi2; omega)
          rw [this]
          congr 1
          have hiff : ((j : Int) < R - 1) ↔ (((j + 1 : Nat) : Int) < R) := by
            push_cast
            omega
          by_cases hj : (j : Int) < R - 1
          · rw [if_pos hj, if_pos (hiff.mp hj)]
          · rw [if_neg hj, if_neg (fun hcon => hj (hiff.mpr hcon))]

/-! ### Bounds on the truncated shares -/

theorem ediv_mul_lower (x T : Int) (hT : 0 < T) : T * (x / T) ≤ x := by
  have h1 := Int.ediv_add_emod x T
  have h2 := Int.emod_nonneg x (ne_of_gt hT)
  linarith

theorem ediv_mul_upper (x T : Int) (hT : 0 < T) : x < T * (x / T) + T := by
  have h1 := Int.ediv_add_emod x T
  have h3 := Int.emod_lt_of_pos x hT
  linarith

/-- Summed bounds for the truncated shares: the floor-shares sum is a
lower bound of the exact total, and misses it by less than one minor
unit per share. -/
theorem sum_ediv_bounds (A T : Int) (hT : 0 < T) (rs : List Int) :
    T * sumInts (rs.map (fun r => (A * r) / T)) ≤ A * sumInts rs ∧
      A * sumInts rs ≤ T * sumInts (rs.map (fun r => (A * r) / T)) + T * rs.length ∧
      (rs ≠ [] →
        A * sumInts rs < T * sumInts (rs.map (fun r => (A * r) / T)) + T * rs.length) := by
  induction rs with
  | nil => simp [sumInts_nil]
  | cons r rest ih =>
    obtain ⟨ih1, ih2, _⟩ := ih
    have h1 := ediv_mul_lower (A * r) T hT
    have h2 := ediv_mul_upper (A * r) T hT
    rw [List.map_cons, sumInts_cons, sumInts_cons, List.length_cons]
    push_cast
    refine ⟨by linarith, by linarith, fun _ => by linarith⟩

/-! ### The allocation characterisation -/

/-- Full characterisation of `allocate` for a non-negative amount and a
validated list of positive ratios: it succeeds with one share per
ratio, every share carries the receiver's currency, the minor-unit
amounts sum exactly to the original amount, and share `i` is the
truncated proportional share plus one extra minor unit exactly when `i`
is below the leftover remainder. -/
theorem allocate_ok_characterization (m : Money) (ratios : List Int)
    (hA : 0 ≤ m.amount) (hne : ratios ≠ []) (hpos : ∀ r ∈ ratios, 0 < r) :
    ∃ out, m.allocate (ratios.map (fun (k : Int) => (k : ℚ))) = .ok out ∧
      out.length = ratios.length ∧
      (∀ s ∈ out, s.currency = m.currency) ∧
      sumInts (out.map Money.amount) = m.amount ∧
      ∀ i (hi : i < out.length) (hi2 : i < ratios.length),
        (out.get ⟨i, hi⟩).amount =
          (m.amount * ratios.get ⟨i, hi2⟩) / sumInts ratios +
            (if (i : Int) <
                m.amount - sumInts (ratios.map (fun r => (m.amount * r) / sumInts ratios))
              then 1 else 0) := by
  have htot : 0 < sumInts ratios := sumInts_pos ratios hne hpos
  have hmapM : (ratios.map (fun (k : Int) => (k : ℚ))).mapM
      (fun ratio => (m.multipliedBy ratio).dividedBy (((sumInts ratios : Int) : ℚ))
        RoundingMode.DOWN) =
      .ok (ratios.map (fun r => (⟨(m.amount * r) / sumInts ratios, m.currency⟩ : Money))) :=
    mapM_map_ok_of_forall _ _ _ _ (fun r hr =>
      allocShare_eq m r (sumInts ratios) hA (le_of_lt (hpos r hr)) htot)
  have hcurs : ∀ s ∈ ratios.map
      (fun r => (⟨(m.amount * r) / sumInts ratios, m.currency⟩ : Money)),
      s.currency = m.currency := by
    intro s hsm
    obtain ⟨r, _, hsr⟩ := List.mem_map.mp hsm
    rw [← hsr]
  have hamounts : (ratios.map
      (fun r => (⟨(m.amount * r) / sumInts ratios, m.currency⟩ : Money))).map Money.amount =
      ratios.map (fun r => (m.amount * r) / sumInts ratios) := by
    rw [List.map_map]
    rfl
  obtain ⟨hb1, _, hb3⟩ := sum_ediv_bounds m.amount (sumInts ratios) htot ratios
  have hb3' := hb3 hne
  have hR0 : 0 ≤ m.amount - sumInts (ratios.map (fun r => (m.amount * r) / sumInts ratios)) := by
    have : sumInts (ratios.map (fun r => (m.amount * r) / sumInts ratios)) ≤ m.amount := by
      have hmul : sumInts ratios * sumInts (ratios.map (fun r => (m.amount * r) / sumInts ratios)) ≤
          sumInts ratios * m.amount := by
        calc sumInts ratios * sumInts (ratios.map (fun r => (m.amount * r) / sumInts ratios)) ≤
            m.amount * sumInts ratios := hb1
          _ = sumInts ratios * m.amount := by ring
      exact le_of_mul_le_mul_left hmul htot
    omega
  have hRlen : m.amount - sumInts (ratios.map (fun r => (m.amount * r) / sumInts ratios)) ≤
      (ratios.length : Int) := by
    have hmul : sumInts ratios * m.amount <
        sumInts ratios *
          (sumInts (ratios.map (fun r => (m.amount * r) / sumInts ratios)) + ratios.length) := by
      calc sumInts ratios * m.amount = m.amount * sumInts ratios := by ring
        _ < sumInts ratios * sumInts (ratios.map (fun r => (m.amount * r) / sumInts ratios)) +
            sumInts ratios * ratios.length := hb3'
        _ = sumInts ratios *
            (sumInts (ratios.map (fun r => (m.amount * r) / sumInts ratios)) + ratios.length) := by
          ring
    have := lt_of_mul_lt_mul_left hmul (le_of_lt htot)
    omega
  obtain ⟨out, hout, hlen, hcur, hsum, hposi⟩ :=
    distributeShares_ok m.currency
      (ratios.map (fun r => (⟨(m.amount * r) / sumInts ratios, m.currency⟩ : Money)))
      (m.amount - sumInts (ratios.map (fun r => (m.amount * r) / sumInts ratios)))
      hcurs hR0 (by rw [List.length_map]; exact hRlen)
  refine ⟨out, ?_, by rw [hlen, List.length_map], hcur, ?_, ?_⟩
  · unfold Money.allocate
    rw [if_neg (fun h => hne (List.length_eq_zero.mp (by rwa [List.length_map] at h)))]
    rw [if_neg (by
      simp only [List.any_eq_true, decide_eq_true_eq, not_exists, not_and]
      intro r hr
      obtain ⟨k, hk, rfl⟩ := List.mem_map.mp hr
      exact not_lt.mpr (by exact_mod_cast le_of_lt (hpos k hk)))]
    rw [if_neg (by
      simp only [List.any_eq_true, decide_eq_true_eq, not_exists, not_and]
      intro r hr
      obtain ⟨k, hk, rfl⟩ := List.mem_map.mp hr
      exact fun hc => (hpos k hk).ne' (by exact_mod_cast hc))]
    dsimp only
    rw [foldl_rat_intCast_zero,
      if_neg (Int.cast_ne_zero.mpr (ne_of_gt htot) :
        ¬(((sumInts ratios : Int) : ℚ) = 0)),
      hmapM]
    dsimp only
    rw [sumShares_ok m.currency _ hcurs, hamounts]
    dsimp only
    rw [minus_same_currency m
      ⟨sumInts (ratios.map (fun r => (m.amount * r) / sumInts ratios)), m.currency⟩ rfl]
    dsimp only
    exact hout
  · rw [hsum, hamounts]
    omega
  · intro i hi hi2
    have hi3 : i < (ratios.map
        (fun r => (⟨(m.amount * r) / sumInts ratios, m.currency⟩ : Money))).length := by
      rw [List.length_map]; exact hi2
    rw [hposi i hi hi3]
    congr 1
    rw [List.get_map]

/-- The truncated share without sign assumptions, as raw truncating
division of the scaled values. -/
theorem allocShare_eq_raw (m : Money) (r total : Int) (ht : total ≠ 0) :
    (m.multipliedBy (r : ℚ)).dividedBy (total : ℚ) RoundingMode.DOWN =
      .ok ⟨((m.amount * r) * 10 ^ m.currency.defaultFractionDigits).tdiv
        (total * 10 ^ m.currency.defaultFractionDigits), m.currency⟩ := by
  rw [multipliedBy_intCast, dividedBy_intCast _ _ _ ht]
  dsimp only
  rw [roundDiv_DOWN]

/-- `allocate` on a validated ratio list reduces to the
remainder-distribution loop over the truncated shares (no sign
assumption on the amount). -/
theorem allocate_eq_distribute (m : Money) (ratios : List Int)
    (hne : ratios ≠ []) (hpos : ∀ r ∈ ratios, 0 < r) :
    m.allocate (ratios.map (fun (k : Int) => (k : ℚ))) =
      distributeShares m.currency
        (ratios.map (fun r =>
          (⟨((m.amount * r) * 10 ^ m.currency.defaultFractionDigits).tdiv
            (sumInts ratios * 10 ^ m.currency.defaultFractionDigits), m.currency⟩ : Money)))
        ⟨m.amount - sumInts ((ratios.map (fun r =>
            (⟨((m.amount * r) * 10 ^ m.currency.defaultFractionDigits).tdiv
              (sumInts ratios * 10 ^ m.currency.defaultFractionDigits), m.currency⟩ : Money))).map
          Money.amount), m.currency⟩ := by
  have htot : 0 < sumInts ratios := sumInts_pos ratios hne hpos
  have hmapM : (ratios.map (fun (k : Int) => (k : ℚ))).mapM
      (fun ratio => (m.multipliedBy ratio).dividedBy (((sumInts ratios : Int) : ℚ))
        RoundingMode.DOWN) =
      .ok (ratios.map (fun r =>
        (⟨((m.amount * r) * 10 ^ m.currency.defaultFractionDigits).tdiv
          (sumInts ratios * 10 ^ m.currency.defaultFractionDigits), m.currency⟩ : Money))) :=
    mapM_map_ok_of_forall _ _ _ _
      (fun r _ => allocShare_eq_raw m r (sumInts ratios) (ne_of_gt htot))
  have hcurs : ∀ s ∈ ratios.map (fun r =>
      (⟨((m.amount * r) * 10 ^ m.currency.defaultFractionDigits).tdiv
        (sumInts ratios * 10 ^ m.currency.defaultFractionDigits), m.currency⟩ : Money)),
      s.currency = m.currency := by
    intro s hsm
    obtain ⟨r, _, hsr⟩ := List.mem_map.mp hsm
    rw [← hsr]
  unfold Money.allocate
  rw [if_neg (fun h => hne (List.length_eq_zero.mp (by rwa [List.length_map] at h)))]
  rw [if_neg (by
    simp only [List.any_eq_true, decide_eq_true_eq, not_exists, not_and]
    intro r hr
    obtain ⟨k, hk, rfl⟩ := List.mem_map.mp hr
    exact not_lt.mpr (by exact_mod_cast le_of_lt (hpos k hk)))]
  rw [if_neg (by
    simp only [List.any_eq_true, decide_eq_true_eq, not_exists, not_and]
    intro r hr
    obtain ⟨k, hk, rfl⟩ := List.mem_map.mp hr
    exact fun hc => (hpos k hk).ne' (by exact_mod_cast hc))]
  dsimp only
  rw [foldl_rat_intCast_zero,
    if_neg (Int.cast_ne_zero.mpr (ne_of_gt htot) :
      ¬(((sumInts ratios : Int) : ℚ) = 0)),
    hmapM]
  dsimp only
  rw [sumShares_ok m.currency _ hcurs]
  dsimp only
  rw [minus_same_currency m ⟨sumInts ((ratios.map (fun r =>
      (⟨((m.amount * r) * 10 ^ m.currency.defaultFractionDigits).tdiv
        (sumInts ratios * 10 ^ m.currency.defaultFractionDigits), m.currency⟩ : Money))).map
      Money.amount), m.currency⟩ rfl]

/-! ### Claim C1: allocation and split preserve the total (amended) -/

/-- Claim C1 as amended: for every Amount with **non-negative**
minor-unit amount and every ratio list accepted by validation whose
ratios are **integer-valued**, `allocate` returns exactly one share per
ratio and the minor-unit amounts sum to the original exactly; likewise
`split(n)` for positive `n`.  (For negative amounts, and likewise for
fractional ratios whose scaled multiplier rounds to zero, the
remainder loop walks past the end of the shares array and throws, see
the counterexample.) -/
theorem claim_C1_allocation_preserves_total (m : Money) (hA : 0 ≤ m.amount) :
    (∀ ratios : List ℚ, ratios ≠ [] → (∀ r ∈ ratios, ¬r < 0) →
      (∀ r ∈ ratios, r ≠ 0) → (∀ r ∈ ratios, ∃ k : Int, r = (k : ℚ)) →
      ∃ shares, m.allocate ratios = .ok shares ∧ shares.length = ratios.length ∧
        sumInts (shares.map Money.amount) = m.amount) ∧
    (∀ n : Int, 0 < n →
      ∃ parts, m.split n = .ok parts ∧ (parts.length : Int) = n ∧
        sumInts (parts.map Money.amount) = m.amount) := by
  constructor
  · intro ratios h1 h2 h3 hint
    obtain ⟨l, rfl⟩ := list_eq_map_intCast ratios hint
    have hlne : l ≠ [] := fun h => h1 (by rw [h]; rfl)
    have hpos : ∀ r ∈ l, 0 < r := by
      intro r hr
      have hmem : ((r : ℚ)) ∈ l.map (fun (k : Int) => (k : ℚ)) :=
        List.mem_map.mpr ⟨r, hr, rfl⟩
      have hge : (0 : Int) ≤ r := by exact_mod_cast not_lt.mp (h2 _ hmem)
      have hne0 : r ≠ 0 := fun hc => h3 _ hmem (by rw [hc]; norm_num)
      omega
    obtain ⟨out, hout, hlen, _, hsum, _⟩ := allocate_ok_characterization m l hA hlne hpos
    exact ⟨out, hout, by rw [hlen, List.length_map], hsum⟩
  · intro n hn
    have hrep_ne : List.replicate n.toNat (1 : Int) ≠ [] := by
      intro h
      have := congrArg List.length h
      simp only [List.length_replicate, List.length_nil] at this
      omega
    have hrep_pos : ∀ r ∈ List.replicate n.toNat (1 : Int), 0 < r := by
      intro r hr
      rw [List.eq_of_mem_replicate hr]
      exact one_pos
    obtain ⟨out, hout, hlen, _, hsum, _⟩ :=
      allocate_ok_characterization m (List.replicate n.toNat 1) hA hrep_ne hrep_pos
    refine ⟨out, ?_, ?_, hsum⟩
    · unfold Money.split
      rw [if_neg (by omega)]
      rw [show List.replicate n.toNat (1 : ℚ) =
        (List.replicate n.toNat (1 : Int)).map (fun (k : Int) => (k : ℚ)) by
          rw [List.map_replicate]; norm_num]
      exact hout
    · rw [hlen, List.length_replicate]
      omega

/-- Witness for C1 at `USD 0.07`, ratios `[2, 3]` and split count 3. -/
theorem claim_C1_witness :
    (∃ shares, (Money.ofMinor 7 usd).allocate [2, 3] = .ok shares ∧
        shares.length = ([2, 3] : List ℚ).length ∧
        sumInts (shares.map Money.amount) = (Money.ofMinor 7 usd).amount) ∧
      ∃ parts, (Money.ofMinor 7 usd).split 3 = .ok parts ∧ (parts.length : Int) = 3 ∧
        sumInts (parts.map Money.amount) = (Money.ofMinor 7 usd).amount :=
  ⟨(claim_C1_allocation_preserves_total (Money.ofMinor 7 usd) (by decide)).1 [2, 3]
      (by simp) (by intro r hr; fin_cases hr <;> norm_num)
      (by intro r hr; fin_cases hr <;> norm_num)
      (by
        intro r hr
        fin_cases hr
        · exact ⟨2, by norm_num⟩
        · exact ⟨3, by norm_num⟩),
    (claim_C1_allocation_preserves_total (Money.ofMinor 7 usd) (by decide)).2 3 (by decide)⟩

/-- Evaluating `multipliedBy` once the scaled factor is known. -/
theorem multipliedBy_eq_of_scaled (m : Money) (f : ℚ) (v : Int)
    (h : toBigIntWithScale f m.currency.defaultFractionDigits = v) :
    m.multipliedBy f =
      ⟨(m.amount * v).tdiv (10 ^ m.currency.defaultFractionDigits), m.currency⟩ := by
  unfold Money.multipliedBy
  dsimp only
  rw [h]

/-- Evaluating `dividedBy` once the scaled divisor is known and non-zero. -/
theorem dividedBy_eq_of_scaled (m : Money) (d : ℚ) (v : Int) (mode : RoundingMode)
    (h : toBigIntWithScale d m.currency.defaultFractionDigits = v) (hv : ¬v = 0) :
    m.dividedBy d mode =
      .ok ⟨roundDiv (m.amount * 10 ^ m.currency.defaultFractionDigits) v mode,
        m.currency⟩ := by
  unfold Money.dividedBy
  dsimp only
  rw [h, if_neg hv]

/-- `Math.round(0.004 * 100) = 0`: the fractional ratio's scaled
multiplier collapses to zero at scale 2. -/
theorem toBigIntWithScale_frac_zero : toBigIntWithScale (4 / 1000 : ℚ) 2 = 0 := by
  unfold toBigIntWithScale jsRound
  rw [Int.floor_eq_zero_iff, Set.mem_Ico]
  norm_num

/-- `Math.round((0.004 + 0.004) * 100) = 1`: the scaled ratio total. -/
theorem toBigIntWithScale_total_one : toBigIntWithScale (1 / 125 : ℚ) 2 = 1 := by
  unfold toBigIntWithScale jsRound
  rw [Int.floor_eq_iff]
  norm_num

/-- Each truncated share of `USD 10.00` under ratio `0.004` with total
`0.008` is zero. -/
theorem allocShare_frac_eval :
    ((Money.ofMinor 1000 usd).multipliedBy (4 / 1000 : ℚ)).dividedBy (1 / 125 : ℚ)
      RoundingMode.DOWN = .ok (Money.ofMinor 0 usd) := by
  rw [multipliedBy_eq_of_scaled (Money.ofMinor 1000 usd) (4 / 1000) 0
    toBigIntWithScale_frac_zero]
  rw [dividedBy_eq_of_scaled _ _ 1 _ toBigIntWithScale_total_one (by decide)]
  decide

/-- Counterexample for C1 as frozen, showing both restrictions of the
amendment are forced.  (1) The Amount `USD -0.01` with the validated
ratio list `[1, 1]` makes `allocate` throw (the remainder loop walks
past the end of the shares array) instead of returning shares, and
`split(2)` likewise.  (2) Even with a non-negative amount, the
validated **fractional** ratio list `[0.004, 0.004]` on `USD 10.00`
throws too: each scaled multiplier `Math.round(0.004 * 100)` is `0`,
both truncated shares are `0`, and the remainder `1000` walks past the
two-element shares array. -/
theorem claim_C1_counterexample :
    (([1, 1] : List ℚ) ≠ [] ∧ (∀ r ∈ ([1, 1] : List ℚ), ¬r < 0) ∧
      (∀ r ∈ ([1, 1] : List ℚ), r ≠ 0) ∧
      (Money.ofMinor (-1) usd).allocate [1, 1] = .error .undefinedShare ∧
      (Money.ofMinor (-1) usd).split 2 = .error .undefinedShare) ∧
    (([4 / 1000, 4 / 1000] : List ℚ) ≠ [] ∧
      (∀ r ∈ ([4 / 1000, 4 / 1000] : List ℚ), ¬r < 0) ∧
      (∀ r ∈ ([4 / 1000, 4 / 1000] : List ℚ), r ≠ 0) ∧
      ([4 / 1000, 4 / 1000] : List ℚ).foldl (fun sum ratio => sum + ratio) 0 ≠ 0 ∧
      0 ≤ (Money.ofMinor 1000 usd).amount ∧
      (Money.ofMinor 1000 usd).allocate [4 / 1000, 4 / 1000] =
        .error .undefinedShare) := by
  have hcast : ([1, 1] : List ℚ) = ([1, 1] : List Int).map (fun (k : Int) => (k : ℚ)) := by
    simp
  have halloc : (Money.ofMinor (-1) usd).allocate [1, 1] = .error .undefinedShare := by
    rw [hcast, allocate_eq_distribute (Money.ofMinor (-1) usd) [1, 1] (by decide)
      (by intro r hr; fin_cases hr <;> decide)]
    decide
  have hfoldl : ([4 / 1000, 4 / 1000] : List ℚ).foldl (fun sum ratio => sum + ratio) 0 =
      1 / 125 := by
    norm_num [List.foldl]
  have hfrac : (Money.ofMinor 1000 usd).allocate [4 / 1000, 4 / 1000] =
      .error .undefinedShare := by
    have hmapM : ([4 / 1000, 4 / 1000] : List ℚ).mapM
        (fun ratio => ((Money.ofMinor 1000 usd).multipliedBy ratio).dividedBy
          (1 / 125 : ℚ) RoundingMode.DOWN) =
        .ok (([4 / 1000, 4 / 1000] : List ℚ).map (fun _ => Money.ofMinor 0 usd)) :=
      mapM_ok_of_forall _ _ _ (by intro r hr; fin_cases hr <;> exact allocShare_frac_eval)
    unfold Money.allocate
    rw [if_neg (by simp : ¬(([4 / 1000, 4 / 1000] : List ℚ).length = 0))]
    rw [if_neg (by
      simp only [List.any_eq_true, decide_eq_true_eq, not_exists, not_and]
      intro r hr
      fin_cases hr <;> norm_num)]
    rw [if_neg (by
      simp only [List.any_eq_true, decide_eq_true_eq, not_exists, not_and]
      intro r hr
      fin_cases hr <;> norm_num)]
    dsimp only
    rw [hfoldl, if_neg (by norm_num : ¬((1 : ℚ) / 125 = 0)), hmapM]
    dsimp only
    decide
  refine ⟨⟨by simp, by intro r hr; fin_cases hr <;> norm_num,
      by intro r hr; fin_cases hr <;> norm_num, halloc, ?_⟩,
    by simp, by intro r hr; fin_cases hr <;> norm_num,
      by intro r hr; fin_cases hr <;> norm_num,
      by rw [hfoldl]; norm_num, by decide, hfrac⟩
  unfold Money.split
  rw [if_neg (by decide)]
  show (Money.ofMinor (-1) usd).allocate [1, 1] = .error .undefinedShare
  exact halloc

/-! ### Claim C3: the allocation example and remainder order -/

theorem of_intCast (k : Int) (c : Currency) :
    Money.of (k : ℚ) c = ⟨k * 10 ^ c.defaultFractionDigits, c⟩ := by
  unfold Money.of
  rw [show ((k : ℚ) * 10 ^ c.defaultFractionDigits) =
    ((k * 10 ^ c.defaultFractionDigits : Int) : ℚ) by push_cast; ring, jsRound_intCast]

/-- Concrete evaluation: 100 USD allocated by ratios 1,1,2. -/
theorem allocate_of100_eq :
    (Money.of (100 : ℚ) usd).allocate [1, 1, 2] =
      .ok [Money.ofMinor 2500 usd, Money.ofMinor 2500 usd, Money.ofMinor 5000 usd] := by
  have h100 : Money.of (100 : ℚ) usd = Money.ofMinor 10000 usd := by
    rw [show (100 : ℚ) = ((100 : Int) : ℚ) by norm_num, of_intCast]
    decide
  have hcast : ([1, 1, 2] : List ℚ) =
      ([1, 1, 2] : List Int).map (fun (k : Int) => (k : ℚ)) := by
    simp
  rw [h100, hcast,
    allocate_eq_distribute _ _ (by decide) (by intro r hr; fin_cases hr <;> decide)]
  decide

/-- Counterexample for C3 as frozen: `Money.of(100, USD).allocate(1,1,2)`
renders as `["25.00", "25.00", "50.00"]`, not `["2.50", "2.50", "5.00"]`
(those are the shares of `Money.of(10, USD)`). -/
theorem claim_C3_counterexample :
    (Money.of (100 : ℚ) usd).allocate [1, 1, 2] =
        .ok [Money.ofMinor 2500 usd, Money.ofMinor 2500 usd, Money.ofMinor 5000 usd] ∧
      (Money.ofMinor 2500 usd).getAmount = "25.00" ∧
      (Money.ofMinor 5000 usd).getAmount = "50.00" ∧
      ("25.00" : String) ≠ "2.50" :=
  ⟨allocate_of100_eq, by decide, by decide, by decide⟩

/-- Claim C3 as amended: `Money.of(100, USD).allocate(1,1,2)` returns
shares rendering as `["25.00", "25.00", "50.00"]` (the frozen claim's
values `2.50`/`2.50`/`5.00` are the shares of `Money.of(10)`), and the
remainder distribution is deterministic and order-dependent: for every
non-negative Amount and validated positive ratio list, share `i` equals
the truncated proportional share plus one extra minor unit exactly when
`i` is below the leftover remainder, i.e. the remainder goes one minor
unit at a time to shares in list order starting from index 0. -/
theorem claim_C3_allocation_example_and_order :
    (∃ out, (Money.of (100 : ℚ) usd).allocate [1, 1, 2] = .ok out ∧
        out.map Money.getAmount = ["25.00", "25.00", "50.00"]) ∧
    ∀ (m : Money) (ratios : List Int), 0 ≤ m.amount → ratios ≠ [] →
      (∀ r ∈ ratios, 0 < r) →
      ∃ out, m.allocate (ratios.map (fun (k : Int) => (k : ℚ))) = .ok out ∧
        out.length = ratios.length ∧
        ∀ i (hi : i < out.length) (hi2 : i < ratios.length),
          (out.get ⟨i, hi⟩).amount =
            (m.amount * ratios.get ⟨i, hi2⟩) / sumInts ratios +
              (if (i : Int) < m.amount -
                  sumInts (ratios.map (fun r => (m.amount * r) / sumInts ratios))
                then 1 else 0) := by
  constructor
  · exact ⟨[Money.ofMinor 2500 usd, Money.ofMinor 2500 usd, Money.ofMinor 5000 usd],
      allocate_of100_eq, by decide⟩
  · intro m ratios hA hne hpos
    obtain ⟨out, hout, hlen, _, _, hposi⟩ := allocate_ok_characterization m ratios hA hne hpos
    exact ⟨out, hout, hlen, hposi⟩

/-- Witness for C3's general part at `USD 0.07`, ratios `[2, 3]`. -/
theorem claim_C3_witness :
    ∃ out, (Money.ofMinor 7 usd).allocate
        (([2, 3] : List Int).map (fun (k : Int) => (k : ℚ))) = .ok out ∧
      out.length = ([2, 3] : List Int).length ∧
      ∀ i (hi : i < out.length) (hi2 : i < ([2, 3] : List Int).length),
        (out.get ⟨i, hi⟩).amount =
          ((Money.ofMinor 7 usd).amount * ([2, 3] : List Int).get ⟨i, hi2⟩) / sumInts [2, 3] +
            (if (i : Int) < (Money.ofMinor 7 usd).amount -
                sumInts (([2, 3] : List Int).map
                  (fun r => ((Money.ofMinor 7 usd).amount * r) / sumInts [2, 3]))
              then 1 else 0) :=
  claim_C3_allocation_example_and_order.2 (Money.ofMinor 7 usd) [2, 3] (by decide)
    (by decide) (by intro r hr; fin_cases hr <;> decide)

/-! ### Claim C6: split with non-positive count -/

/-- Claim C6 as amended: `split(0)` fails with the empty-ratio-list
`InvalidRatios` error (delegating to allocate's validation), but
`split(n)` for negative `n` fails earlier with the host's
invalid-array-length `RangeError` raised by `Array(n)`, before
allocate's validation ever runs. -/
theorem claim_C6_split_nonpositive (m : Money) (n : Int) (hn : n ≤ 0) :
    m.split n =
      .error (if n < 0 then MoneyError.invalidArrayLength else MoneyError.emptyRatios) := by
  unfold Money.split
  by_cases h : n < 0
  · rw [if_pos h, if_pos h]
  · rw [if_neg h, if_neg h]
    have hn0 : n = 0 := by omega
    subst hn0
    rfl

/-- Witness for C6 at split counts `-2` and `0`. -/
theorem claim_C6_witness :
    (Money.ofMinor 1000 usd).split (-2) =
        .error (if (-2 : Int) < 0 then MoneyError.invalidArrayLength
          else MoneyError.emptyRatios) ∧
      (Money.ofMinor 1000 usd).split 0 =
        .error (if (0 : Int) < 0 then MoneyError.invalidArrayLength
          else MoneyError.emptyRatios) :=
  ⟨claim_C6_split_nonpositive (Money.ofMinor 1000 usd) (-2) (by decide),
    claim_C6_split_nonpositive (Money.ofMinor 1000 usd) 0 (by decide)⟩

/-- Counterexample for C6 as frozen: `split(-1)` does **not** fail with
an `InvalidRatios` validation error; `Array(-1)` throws the host's
invalid-array-length `RangeError` before allocate is ever called. -/
theorem claim_C6_counterexample :
    (-1 : Int) ≤ 0 ∧
      (Money.ofMinor 1000 usd).split (-1) = .error .invalidArrayLength ∧
      MoneyError.invalidArrayLength ≠ MoneyError.emptyRatios ∧
      MoneyError.invalidArrayLength ≠ MoneyError.negativeRatios ∧
      MoneyError.invalidArrayLength ≠ MoneyError.zeroRatios := by
  refine ⟨by decide, ?_, by decide, by decide, by decide⟩
  unfold Money.split
  rw [if_pos (by decide)]

/-! ### Claim C7: RoundingMode.UP on negative dividends -/

/-- Claim C7 evaluated at the failing input: `USD -0.05` divided by 2
under `RoundingMode.UP` returns `-1` minor unit, while the truncated
quotient of the scaled division is `-2`.  The magnitude of the result
is strictly SMALLER than the truncated quotient's (the code moves the
quotient toward zero, and `-1` is not even a rounding of the exact
quotient `-2.5`), contradicting the claim that UP increases the
magnitude for negative dividends as well. -/
theorem claim_C7_up_failing_input :
    (Money.ofMinor (-5) usd).dividedBy (2 : ℚ) RoundingMode.UP =
        .ok (Money.ofMinor (-1) usd) ∧
      ((-5 : Int) * 10 ^ 2).tdiv (2 * 10 ^ 2) = -2 ∧
      (-1 : Int).natAbs < (-2 : Int).natAbs := by
  refine ⟨?_, by decide, by decide⟩
  rw [show (2 : ℚ) = ((2 : Int) : ℚ) by norm_num, dividedBy_intCast _ _ _ (by decide)]
  decide

/-! ### Claim C9: currency preservation -/

theorem plus_ok_currency (a b r : Money) (h : a.plus b = .ok r) :
    r.currency = a.currency := by
  unfold Money.plus at h
  split at h
  · cases h; rfl
  · simp at h

theorem minus_ok_currency (a b r : Money) (h : a.minus b = .ok r) :
    r.currency = a.currency := by
  unfold Money.minus at h
  split at h
  · cases h; rfl
  · simp at h

theorem dividedBy_ok_currency (m : Money) (d : ℚ) (mode : RoundingMode) (r : Money)
    (h : m.dividedBy d mode = .ok r) : r.currency = m.currency := by
  unfold Money.dividedBy at h
  dsimp only at h
  split at h
  · simp at h
  · cases h; rfl

theorem distributeShares_ok_mem_currency (c : Currency) (shares : List Money)
    (rem : Money) (out : List Money) (h : distributeShares c shares rem = .ok out) :
    ∀ y ∈ out, ∃ x ∈ shares, y.currency = x.currency := by
  induction shares generalizing rem out with
  | nil =>
    unfold distributeShares at h
    split at h
    · cases h
      intro y hy
      exact ⟨y, hy, rfl⟩
    · simp at h
  | cons s rest ih =>
    unfold distributeShares at h
    split at h
    · cases h
      intro y hy
      exact ⟨y, hy, rfl⟩
    · dsimp only at h
      split at h
      next s2 rem2 hplus hminus =>
        split at h
        next out' hout' =>
          cases h
          intro y hy
          rcases List.mem_cons.mp hy with hy | hy
          · refine ⟨s, List.mem_cons_self s rest, ?_⟩
            rw [hy, plus_ok_currency _ _ _ hplus]
          · obtain ⟨x, hx, hyx⟩ := ih rem2 out' hout' y hy
            exact ⟨x, List.mem_cons_of_mem s hx, hyx⟩
        next => simp at h
      next => simp at h
      next => simp at h

theorem allocate_ok_currency (m : Money) (ratios : List ℚ) (out : List Money)
    (h : m.allocate ratios = .ok out) : ∀ s ∈ out, s.currency = m.currency := by
  unfold Money.allocate at h
  split at h
  · simp at h
  · split at h
    · simp at h
    · split at h
      · simp at h
      · dsimp only at h
        split at h
        · simp at h
        · split at h
          next => simp at h
          next shares hshares =>
            split at h
            next => simp at h
            next sum hsum =>
              split at h
              next => simp at h
              next remainder hrem =>
                intro s hs
                obtain ⟨x, hx, hsx⟩ :=
                  distributeShares_ok_mem_currency m.currency shares remainder out h s hs
                obtain ⟨r, _, hr⟩ := mapM_ok_mem _ _ _ hshares x hx
                rw [hsx, dividedBy_ok_currency _ _ _ _ hr]
                rfl

theorem split_ok_currency (m : Money) (n : Int) (out : List Money)
    (h : m.split n = .ok out) : ∀ s ∈ out, s.currency = m.currency := by
  unfold Money.split at h
  split at h
  · simp at h
  · exact allocate_ok_currency m _ out h

/-- Claim C9: every Amount-producing operation (`plus`, `minus`,
`multipliedBy`, `dividedBy`, `percentage`, `abs`, `negated`, and every
share returned by `allocate` and `split`) returns Amounts carrying
exactly the receiver's currency. -/
theorem claim_C9_currency_preserved (m b : Money) (f d p : ℚ)
    (fmt : PercentageFormat) (mode : RoundingMode) (ratios : List ℚ) (n : Int) :
    (m.multipliedBy f).currency = m.currency ∧
      (m.percentage p fmt).currency = m.currency ∧
      m.abs.currency = m.currency ∧
      m.negated.currency = m.currency ∧
      (∀ r, m.plus b = .ok r → r.currency = m.currency) ∧
      (∀ r, m.minus b = .ok r → r.currency = m.currency) ∧
      (∀ r, m.dividedBy d mode = .ok r → r.currency = m.currency) ∧
      (∀ out, m.allocate ratios = .ok out → ∀ s ∈ out, s.currency = m.currency) ∧
      (∀ out, m.split n = .ok out → ∀ s ∈ out, s.currency = m.currency) := by
  refine ⟨rfl, ?_, ?_, rfl, ?_, ?_, ?_, ?_, ?_⟩
  · cases fmt <;> rfl
  · unfold Money.abs
    split <;> rfl
  · exact fun r h => plus_ok_currency m b r h
  · exact fun r h => minus_ok_currency m b r h
  · exact fun r h => dividedBy_ok_currency m d mode r h
  · exact fun out h => allocate_ok_currency m ratios out h
  · exact fun out h => split_ok_currency m n out h

/-- Witness for C9: each operation applied at concrete USD inputs. -/
theorem claim_C9_witness :
    ((Money.ofMinor 7 usd).multipliedBy 2).currency = (Money.ofMinor 7 usd).currency ∧
      ((Money.ofMinor 7 usd).percentage 15 PercentageFormat.AS_PERCENTAGE).currency =
        (Money.ofMinor 7 usd).currency ∧
      (Money.ofMinor (-7) usd).abs.currency = (Money.ofMinor (-7) usd).currency ∧
      (Money.ofMinor 7 usd).negated.currency = (Money.ofMinor 7 usd).currency ∧
      (Money.ofMinor 5 usd).currency = (Money.ofMinor 2 usd).currency ∧
      (Money.ofMinor 1 usd).currency = (Money.ofMinor 3 usd).currency ∧
      (Money.ofMinor 5 usd).currency = (Money.ofMinor 10 usd).currency ∧
      (Money.ofMinor 2500 usd).currency = (Money.of (100 : ℚ) usd).currency ∧
      (Money.ofMinor 5 usd).currency = (Money.ofMinor 10 usd).currency := by
  have hdiv : (Money.ofMinor 10 usd).dividedBy ((2 : Int) : ℚ) RoundingMode.DOWN =
      .ok (Money.ofMinor 5 usd) := by
    rw [dividedBy_intCast _ _ _ (by decide)]
    decide
  have hsplit : (Money.ofMinor 10 usd).split 2 =
      .ok [Money.ofMinor 5 usd, Money.ofMinor 5 usd] := by
    unfold Money.split
    rw [if_neg (by decide)]
    show (Money.ofMinor 10 usd).allocate [1, 1] =
      .ok [Money.ofMinor 5 usd, Money.ofMinor 5 usd]
    rw [show ([1, 1] : List ℚ) = ([1, 1] : List Int).map (fun (k : Int) => (k : ℚ)) by simp,
      allocate_eq_distribute _ _ (by decide) (by intro r hr; fin_cases hr <;> decide)]
    decide
  refine ⟨(claim_C9_currency_preserved (Money.ofMinor 7 usd) (Money.ofMinor 2 usd)
      2 2 15 PercentageFormat.AS_PERCENTAGE RoundingMode.DOWN [1] 1).1,
    (claim_C9_currency_preserved (Money.ofMinor 7 usd) (Money.ofMinor 2 usd)
      2 2 15 PercentageFormat.AS_PERCENTAGE RoundingMode.DOWN [1] 1).2.1,
    (claim_C9_currency_preserved (Money.ofMinor (-7) usd) (Money.ofMinor 2 usd)
      2 2 15 PercentageFormat.AS_PERCENTAGE RoundingMode.DOWN [1] 1).2.2.1,
    (claim_C9_currency_preserved (Money.ofMinor 7 usd) (Money.ofMinor 2 usd)
      2 2 15 PercentageFormat.AS_PERCENTAGE RoundingMode.DOWN [1] 1).2.2.2.1,
    (claim_C9_currency_preserved (Money.ofMinor 2 usd) (Money.ofMinor 3 usd)
      2 2 15 PercentageFormat.AS_PERCENTAGE RoundingMode.DOWN [1] 1).2.2.2.2.1
      (Money.ofMinor 5 usd) (by decide),
    (claim_C9_currency_preserved (Money.ofMinor 3 usd) (Money.ofMinor 2 usd)
      2 2 15 PercentageFormat.AS_PERCENTAGE RoundingMode.DOWN [1] 1).2.2.2.2.2.1
      (Money.ofMinor 1 usd) (by decide),
    (claim_C9_currency_preserved (Money.ofMinor 10 usd) (Money.ofMinor 2 usd)
      2 ((2 : Int) : ℚ) 15 PercentageFormat.AS_PERCENTAGE RoundingMode.DOWN [1] 1).2.2.2.2.2.2.1
      (Money.ofMinor 5 usd) hdiv,
    (claim_C9_currency_preserved (Money.of (100 : ℚ) usd) (Money.ofMinor 2 usd)
      2 2 15 PercentageFormat.AS_PERCENTAGE RoundingMode.DOWN [1, 1, 2] 1).2.2.2.2.2.2.2.1
      [Money.ofMinor 2500 usd, Money.ofMinor 2500 usd, Money.ofMinor 5000 usd]
      allocate_of100_eq (Money.ofMinor 2500 usd) (by decide),
    (claim_C9_currency_preserved (Money.ofMinor 10 usd) (Money.ofMinor 2 usd)
      2 2 15 PercentageFormat.AS_PERCENTAGE RoundingMode.DOWN [1] 2).2.2.2.2.2.2.2.2
      [Money.ofMinor 5 usd, Money.ofMinor 5 usd] hsplit (Money.ofMinor 5 usd) (by decide)⟩

/-! ### Digit rendering and parsing round-trip -/

theorem natToCharsAux_eq_digits (fuel : Nat) : ∀ n : Nat, n ≤ fuel →
    natToCharsAux fuel n = ((Nat.digits 10 n).map Nat.digitChar).reverse := by
  induction fuel with
  | zero =>
    intro n h
    have hn : n = 0 := by omega
    subst hn
    simp [natToCharsAux]
  | succ fuel ih =>
    intro n h
    match n with
    | 0 => simp [natToCharsAux]
    | k + 1 =>
      have hdiv : (k + 1) / 10 < k + 1 := Nat.div_lt_self (by omega) (by norm_num)
      rw [show natToCharsAux (fuel + 1) (k + 1) =
        natToCharsAux fuel ((k + 1) / 10) ++ [Nat.digitChar ((k + 1) % 10)] from rfl]
      rw [ih ((k + 1) / 10) (by omega)]
      rw [Nat.digits_def' (by norm_num : (1 : Nat) < 10) (Nat.succ_pos k)]
      rw [List.map_cons, List.reverse_cons]

theorem natToChars_eq_digits (n : Nat) (h : n ≠ 0) :
    natToChars n = ((Nat.digits 10 n).map Nat.digitChar).reverse := by
  unfold natToChars
  rw [if_neg h]
  exact natToCharsAux_eq_digits (n + 1) n (by omega)

theorem digitChar_isDigit (d : Nat) (h : d < 10) : (Nat.digitChar d).isDigit = true := by
  interval_cases d <;> decide

theorem charToDigit_digitChar (d : Nat) (h : d < 10) :
    charToDigit (Nat.digitChar d) = some d := by
  interval_cases d <;> decide

theorem natToChars_all_digits (n : Nat) : ∀ c ∈ natToChars n, c.isDigit = true := by
  by_cases h : n = 0
  · subst h
    intro c hc
    simp [natToChars] at hc
    rw [hc]
    decide
  · rw [natToChars_eq_digits n h]
    intro c hc
    rw [List.mem_reverse] at hc
    obtain ⟨d, hd, hdc⟩ := List.mem_map.mp hc
    rw [← hdc]
    exact digitChar_isDigit d (Nat.digits_lt_base (by norm_num) hd)

theorem isDigit_ne_minus (c : Char) (h : c.isDigit = true) : c ≠ '-' := by
  intro hc
  rw [hc] at h
  exact absurd h (by decide)

theorem isDigit_ne_dot (c : Char) (h : c.isDigit = true) : c ≠ '.' := by
  intro hc
  rw [hc] at h
  exact absurd h (by decide)

theorem natToChars_ne_nil (n : Nat) : natToChars n ≠ [] := by
  by_cases h : n = 0
  · subst h
    decide
  · rw [natToChars_eq_digits n h]
    simp only [ne_eq, List.reverse_eq_nil_iff, List.map_eq_nil]
    exact Nat.digits_ne_nil_iff_ne_zero.mpr h

theorem natToChars_length_le (n k : Nat) (hk : 1 ≤ k) (h : n < 10 ^ k) :
    (natToChars n).length ≤ k := by
  by_cases h0 : n = 0
  · subst h0
    simpa [natToChars] using hk
  · rw [natToChars_eq_digits n h0, List.length_reverse, List.length_map]
    by_contra hlen
    push_neg at hlen
    have h1 : (10 : Nat) ^ (Nat.digits 10 n).length ≤ 10 * n :=
      Nat.base_pow_length_digits_le 10 n (by norm_num) h0
    have h2 : (10 : Nat) ^ (k + 1) ≤ 10 ^ (Nat.digits 10 n).length :=
      Nat.pow_le_pow_right (by norm_num) (by omega)
    have h3 : (10 : Nat) ^ (k + 1) = 10 * 10 ^ k := by ring
    have h4 : (10 : Nat) ^ k ≤ n := by
      have := le_trans h2 h1
      rw [h3] at this
      exact Nat.le_of_mul_le_mul_left this (by norm_num)
    omega

theorem parseDigitsAux_cons (acc : Nat) (c : Char) (cs : List Char) :
    parseDigitsAux acc (c :: cs) =
      match charToDigit c with
      | some d => parseDigitsAux (acc * 10 + d) cs
      | none => none := rfl

theorem parseDigitsAux_append (acc : Nat) (l1 l2 : List Char) :
    parseDigitsAux acc (l1 ++ l2) =
      match parseDigitsAux acc l1 with
      | some v => parseDigitsAux v l2
      | none => none := by
  induction l1 generalizing acc with
  | nil => rfl
  | cons c cs ih =>
    rw [List.cons_append, parseDigitsAux_cons, parseDigitsAux_cons]
    cases hc : charToDigit c with
    | some d =>
      dsimp only
      exact ih (acc * 10 + d)
    | none => rfl

theorem parseDigitsAux_digits (ds : List Nat) (hds : ∀ d ∈ ds, d < 10) :
    ∀ acc : Nat, parseDigitsAux acc ((ds.map Nat.digitChar).reverse) =
      some (acc * 10 ^ ds.length + Nat.ofDigits 10 ds) := by
  induction ds with
  | nil =>
    intro acc
    simp [parseDigitsAux, Nat.ofDigits_nil]
  | cons d ds ih =>
    intro acc
    rw [List.map_cons, List.reverse_cons,
      parseDigitsAux_append acc ((ds.map Nat.digitChar).reverse) [Nat.digitChar d],
      ih (fun x hx => hds x (List.mem_cons_of_mem d hx)) acc]
    show parseDigitsAux (acc * 10 ^ ds.length + Nat.ofDigits 10 ds) [Nat.digitChar d] = _
    unfold parseDigitsAux
    rw [charToDigit_digitChar d (hds d (List.mem_cons_self d ds))]
    show some ((acc * 10 ^ ds.length + Nat.ofDigits 10 ds) * 10 + d) = _
    rw [Nat.ofDigits_cons]
    congr 1
    rw [List.length_cons]
    ring

theorem parse_natToChars (n : Nat) : parseDigitsAux 0 (natToChars n) = some n := by
  by_cases h : n = 0
  · subst h
    decide
  · rw [natToChars_eq_digits n h,
      parseDigitsAux_digits (Nat.digits 10 n)
        (fun d hd => Nat.digits_lt_base (by norm_num) hd) 0]
    rw [Nat.ofDigits_digits]
    simp

theorem parseBigInt_bigintToString (i : Int) : parseBigInt (bigintToString i) = some i := by
  by_cases hi : i < 0
  · have : bigintToString i = ⟨'-' :: natToChars i.natAbs⟩ := by
      unfold bigintToString
      rw [if_pos hi]
    rw [this]
    show parseBigInt ⟨'-' :: natToChars i.natAbs⟩ = some i
    unfold parseBigInt
    rw [show (String.mk ('-' :: natToChars i.natAbs)).data = '-' :: natToChars i.natAbs from rfl]
    dsimp only
    rw [if_pos rfl, parse_natToChars]
    show some (-(i.natAbs : Int)) = some i
    congr 1
    omega
  · have : bigintToString i = ⟨natToChars i.natAbs⟩ := by
      unfold bigintToString
      rw [if_neg hi]
    rw [this]
    unfold parseBigInt
    rw [show (String.mk (natToChars i.natAbs)).data = natToChars i.natAbs from rfl]
    match hchars : natToChars i.natAbs with
    | [] => exact absurd hchars (natToChars_ne_nil _)
    | c :: cs =>
      dsimp only
      have hdig : c.isDigit = true :=
        natToChars_all_digits i.natAbs c (by rw [hchars]; exact List.mem_cons_self c cs)
      rw [if_neg (isDigit_ne_minus c hdig), ← hchars, parse_natToChars]
      show some ((i.natAbs : Int)) = some i
      congr 1
      omega

/-! ### Claim C5: decimal rendering format -/

theorem tmod_neg_left (a b : Int) : (-a).tmod b = -(a.tmod b) := by
  rw [Int.tmod_def, Int.tmod_def, Int.neg_tdiv]
  ring

theorem absFrac_bounds (a b : Int) (hb : 0 < b) :
    0 ≤ (if a.tmod b < 0 then -(a.tmod b) else a.tmod b) ∧
      (if a.tmod b < 0 then -(a.tmod b) else a.tmod b) < b := by
  rcases le_or_lt 0 a with ha | ha
  · have h1 := Int.tmod_nonneg b ha
    have h2 := Int.tmod_lt_of_pos a hb
    split <;> omega
  · have h := tmod_neg_left a b
    have h1 := @Int.tmod_nonneg (-a) b (by omega)
    have h2 := Int.tmod_lt_of_pos (-a) hb
    split <;> omega

theorem bigintToString_nonneg (i : Int) (h : 0 ≤ i) :
    bigintToString i = ⟨natToChars i.natAbs⟩ := by
  unfold bigintToString
  rw [if_neg (not_lt.mpr h)]

theorem bigintToString_no_dot (i : Int) : '.' ∉ (bigintToString i).data := by
  unfold bigintToString
  intro hmem
  split at hmem
  · rw [show (String.mk ('-' :: natToChars i.natAbs)).data =
      '-' :: natToChars i.natAbs from rfl] at hmem
    rcases List.mem_cons.mp hmem with h | h
    · exact absurd h (by decide)
    · exact isDigit_ne_dot '.' (natToChars_all_digits i.natAbs '.' h) rfl
  · rw [show (String.mk (natToChars i.natAbs)).data = natToChars i.natAbs from rfl] at hmem
    exact isDigit_ne_dot '.' (natToChars_all_digits i.natAbs '.' hmem) rfl

theorem padStart_data (s : String) (k : Nat) (c : Char) :
    (padStart s k c).data = List.replicate (k - s.length) c ++ s.data := by
  unfold padStart
  split
  · rw [show k - s.length = 0 by omega, List.replicate_zero, List.nil_append]
  · rfl

theorem padStart_length (s : String) (k : Nat) (c : Char) (h : s.length ≤ k) :
    ((padStart s k c).data).length = k := by
  rw [padStart_data, List.length_append, List.length_replicate]
  have : s.data.length = s.length := rfl
  omega

theorem parseDigitsAux_zeros (k : Nat) (l : List Char) :
    parseDigitsAux 0 (List.replicate k '0' ++ l) = parseDigitsAux 0 l := by
  induction k with
  | zero => rw [List.replicate_zero, List.nil_append]
  | succ k ih =>
    rw [List.replicate_succ, List.cons_append, parseDigitsAux_cons]
    show parseDigitsAux (0 * 10 + 0) (List.replicate k '0' ++ l) = _
    rw [show (0 * 10 + 0 : Nat) = 0 by ring]
    exact ih

/-- Claim C5: `getAmount` renders every Amount (positive, zero or
negative) as `integerPart.fractionalPart` where the integer part is the
truncated quotient by `10^scale` rendered as a `bigint` string, the
fractional part consists of exactly `scale` decimal digit characters
whose value is the absolute remainder (zero-padded on the left), and
scale-0 currencies render no decimal point at all. -/
theorem claim_C5_getAmount_format (m : Money) :
    (m.currency.defaultFractionDigits = 0 → '.' ∉ (m.getAmount).data) ∧
      (m.currency.defaultFractionDigits ≠ 0 →
        ∃ fracChars : List Char,
          (m.getAmount).data =
            (bigintToString (m.amount.tdiv (10 ^ m.currency.defaultFractionDigits))).data ++
              '.' :: fracChars ∧
            fracChars.length = m.currency.defaultFractionDigits ∧
            fracChars.all Char.isDigit = true ∧
            parseDigitsAux 0 fracChars =
              some (m.amount.tmod (10 ^ m.currency.defaultFractionDigits)).natAbs) := by
  constructor
  · intro h0
    unfold Money.getAmount
    dsimp only
    rw [if_pos h0]
    exact bigintToString_no_dot _
  · intro hs
    have hpow : (0 : Int) < 10 ^ m.currency.defaultFractionDigits := by positivity
    obtain ⟨habs0, habslt⟩ :=
      absFrac_bounds m.amount (10 ^ m.currency.defaultFractionDigits) hpow
    set frac := m.amount.tmod (10 ^ m.currency.defaultFractionDigits) with hfrac
    set absFrac := (if frac < 0 then -frac else frac) with habsdef
    have hnatAbs : absFrac.natAbs = frac.natAbs := by
      rw [habsdef]
      split <;> simp [Int.natAbs_neg]
    have habs_str : bigintToString absFrac = ⟨natToChars absFrac.natAbs⟩ :=
      bigintToString_nonneg absFrac habs0
    have hlen_le : (bigintToString absFrac).length ≤ m.currency.defaultFractionDigits := by
      rw [habs_str]
      show (natToChars absFrac.natAbs).length ≤ m.currency.defaultFractionDigits
      apply natToChars_length_le absFrac.natAbs m.currency.defaultFractionDigits (by omega)
      have hcast : (absFrac.natAbs : Int) < ((10 ^ m.currency.defaultFractionDigits : Nat) : Int) := by
        rw [Int.natAbs_of_nonneg habs0]
        push_cast
        exact habslt
      exact_mod_cast hcast
    refine ⟨(padStart (bigintToString absFrac) m.currency.defaultFractionDigits '0').data,
      ?_, ?_, ?_, ?_⟩
    · unfold Money.getAmount
      dsimp only
      rw [if_neg hs]
      rw [show ((bigintToString (m.amount.tdiv (10 ^ m.currency.defaultFractionDigits)) ++ "." ++
          padStart (bigintToString absFrac) m.currency.defaultFractionDigits '0')).data =
        (bigintToString (m.amount.tdiv (10 ^ m.currency.defaultFractionDigits))).data ++
          '.' :: (padStart (bigintToString absFrac)
            m.currency.defaultFractionDigits '0').data by
        rw [String.data_append, String.data_append, List.append_assoc]
        rfl]
    · exact padStart_length _ _ _ hlen_le
    · rw [padStart_data, List.all_append, Bool.and_eq_true]
      refine ⟨?_, ?_⟩
      · rw [List.all_eq_true]
        intro c hc
        rw [List.eq_of_mem_replicate hc]
        decide
      · rw [List.all_eq_true, habs_str]
        exact fun c hc => natToChars_all_digits absFrac.natAbs c hc
    · rw [padStart_data, parseDigitsAux_zeros, habs_str]
      show parseDigitsAux 0 (natToChars absFrac.natAbs) = some frac.natAbs
      rw [parse_natToChars, hnatAbs]

/-- Witness for C5: a scale-0 JPY amount renders without a decimal
point, and `BHD -0.001` (scale 3) renders with exactly three zero-padded
fractional digit characters. -/
theorem claim_C5_witness :
    ('.' ∉ ((Money.ofMinor 5 jpy).getAmount).data) ∧
      ∃ fracChars : List Char,
        ((Money.ofMinor (-1) bhd).getAmount).data =
          (bigintToString ((Money.ofMinor (-1) bhd).amount.tdiv (10 ^ 3))).data ++
            '.' :: fracChars ∧
          fracChars.length = 3 ∧
          fracChars.all Char.isDigit = true ∧
          parseDigitsAux 0 fracChars =
            some (((Money.ofMinor (-1) bhd).amount.tmod (10 ^ 3)).natAbs) :=
  ⟨(claim_C5_getAmount_format (Money.ofMinor 5 jpy)).1 rfl,
    (claim_C5_getAmount_format (Money.ofMinor (-1) bhd)).2 (by decide)⟩


/-! ### The tagged serialization surface (`serializeObject` /
`deserializeObject`)

JSON values that can embed `Money` instances are modelled as trees; the
JSON text itself is not modelled (the host's `JSON.stringify` /
`JSON.parse` pair is the identity on these trees).  Array and object
field spines are constructors of the same inductive type so that every
function below is plainly structurally recursive. -/

/-- A JSON-serialisable value possibly containing `Money` leaves.
`darr`/`dobj` wrap a spine built from `daNil`/`daCons` and
`dfNil`/`dfCons` respectively. -/
inductive DataVal where
  | dnull
  | dbool (b : Bool)
  | dnum (q : ℚ)
  | dstr (s : String)
  | darr (items : DataVal)
  | daNil
  | daCons (head tail : DataVal)
  | dobj (fields : DataVal)
  | dfNil
  | dfCons (key : String) (value tail : DataVal)
  | dmoney (m : Money)
  deriving DecidableEq

/-- A plain JSON value (no `Money`), the tree behind the serialized
text, with the same spine encoding. -/
inductive JsonVal where
  | jnull
  | jbool (b : Bool)
  | jnum (q : ℚ)
  | jstr (s : String)
  | jarr (items : JsonVal)
  | jaNil
  | jaCons (head tail : JsonVal)
  | jobj (fields : JsonVal)
  | jfNil
  | jfCons (key : String) (value tail : JsonVal)
  deriving DecidableEq

/-- `Money.serializeObject`'s replacer: a `Money` value becomes
`{ amount: value.amount.toString(), currency: value.currency,
__money: true }`, the currency serialising through `Currency.toJSON`
as its code; everything else is copied structurally. -/
def serializeObject : DataVal → JsonVal
  | .dnull => .jnull
  | .dbool b => .jbool b
  | .dnum q => .jnum q
  | .dstr s => .jstr s
  | .darr items => .jarr (serializeObject items)
  | .daNil => .jaNil
  | .daCons head tail => .jaCons (serializeObject head) (serializeObject tail)
  | .dobj fields => .jobj (serializeObject fields)
  | .dfNil => .jfNil
  | .dfCons key value tail => .jfCons key (serializeObject value) (serializeObject tail)
  | .dmoney m =>
      .jobj (.jfCons "amount" (.jstr (bigintToString m.amount))
        (.jfCons "currency" (.jstr m.currency.currencyCode)
          (.jfCons "__money" (.jbool true) .jfNil)))

/-- Field access `obj[key]` on a revived field spine (first occurrence;
the serializer never emits duplicate keys). -/
def lookupField : DataVal → String → Option DataVal
  | .dfCons key value tail, wanted =>
      if key == wanted then some value else lookupField tail wanted
  | _, _ => none

/-- `Money.deserializeObject`'s reviver, applied bottom-up as
`JSON.parse` does: an object whose revived `__money` field is `true`
becomes
`Money.ofMinor(BigInt(value.amount), Currency.of(value.currency))`; a
failing `BigInt` conversion or an unregistered currency code is a
thrown host error. -/
def deserializeObject (reg : CurrencyRegistry) : JsonVal → Except MoneyError DataVal
  | .jnull => .ok .dnull
  | .jbool b => .ok (.dbool b)
  | .jnum q => .ok (.dnum q)
  | .jstr s => .ok (.dstr s)
  | .jarr items =>
      match deserializeObject reg items with
      | .ok out => .ok (.darr out)
      | .error e => .error e
  | .jaNil => .ok .daNil
  | .jaCons head tail =>
      match deserializeObject reg head, deserializeObject reg tail with
      | .ok h, .ok t => .ok (.daCons h t)
      | .error e, _ => .error e
      | .ok _, .error e => .error e
  | .jfNil => .ok .dfNil
  | .jfCons key value tail =>
      match deserializeObject reg value, deserializeObject reg tail with
      | .ok v, .ok t => .ok (.dfCons key v t)
      | .error e, _ => .error e
      | .ok _, .error e => .error e
  | .jobj fields =>
      match deserializeObject reg fields with
      | .error e => .error e
      | .ok revived =>
        match lookupField revived "__money" with
        | some (.dbool true) =>
          match lookupField revived "amount", lookupField revived "currency" with
          | some (.dstr amountStr), some (.dstr code) =>
            match parseBigInt amountStr with
            | none => .error .invalidAmount
            | some minor =>
              match Currency.ofCode reg code with
              | none => .error .unknownCurrency
              | some c => .ok (.dmoney (Money.ofMinor minor c))
          | _, _ => .error .invalidAmount
        | _ => .ok (.dobj revived)

/-- Well-formed data for the round-trip contract: every embedded
`Money`'s currency is registered under its own code, and no plain
object uses the reserved `__money` key. -/
def goodData (reg : CurrencyRegistry) : DataVal → Bool
  | .dnull | .dbool _ | .dnum _ | .dstr _ => true
  | .darr items => goodData reg items
  | .daNil => true
  | .daCons head tail => goodData reg head && goodData reg tail
  | .dobj fields => goodData reg fields
  | .dfNil => true
  | .dfCons key value tail =>
      !(key == "__money") && goodData reg value && goodData reg tail
  | .dmoney m => Currency.ofCode reg m.currency.currencyCode == some m.currency

theorem goodData_lookup_money (reg : CurrencyRegistry) (fields : DataVal)
    (h : goodData reg fields = true) : lookupField fields "__money" = none := by
  match fields with
  | .dfCons key value tail =>
    have h' : (!(key == "__money") && goodData reg value && goodData reg tail) = true := h
    rw [Bool.and_eq_true, Bool.and_eq_true] at h'
    obtain ⟨⟨hkey, _⟩, htail⟩ := h'
    show (if key == "__money" then some value else lookupField tail "__money") = none
    rw [if_neg (by
      intro hcon
      rw [hcon] at hkey
      exact absurd hkey (by decide))]
    exact goodData_lookup_money reg tail htail
  | .dnull | .dbool _ | .dnum _ | .dstr _ | .darr _ | .daNil | .daCons _ _ | .dobj _
  | .dfNil | .dmoney _ => rfl

/-- One-step round trip: serializing then deserializing any well-formed
data tree is the identity. -/
theorem roundTrip_val (reg : CurrencyRegistry) (v : DataVal)
    (h : goodData reg v = true) :
    deserializeObject reg (serializeObject v) = .ok v := by
  match v with
  | .dnull | .dbool _ | .dnum _ | .dstr _ | .daNil | .dfNil => rfl
  | .darr items =>
    have ih := roundTrip_val reg items (by exact h)
    show (match deserializeObject reg (serializeObject items) with
      | .ok out => Except.ok (DataVal.darr out)
      | .error e => Except.error e) = Except.ok (DataVal.darr items)
    rw [ih]
  | .daCons head tail =>
    have h' : (goodData reg head && goodData reg tail) = true := h
    rw [Bool.and_eq_true] at h'
    have ih1 := roundTrip_val reg head h'.1
    have ih2 := roundTrip_val reg tail h'.2
    show (match deserializeObject reg (serializeObject head),
        deserializeObject reg (serializeObject tail) with
      | .ok hd, .ok tl => Except.ok (DataVal.daCons hd tl)
      | .error e, _ => Except.error e
      | .ok _, .error e => Except.error e) = Except.ok (DataVal.daCons head tail)
    rw [ih1, ih2]
  | .dfCons key value tail =>
    have h' : (!(key == "__money") && goodData reg value && goodData reg tail) = true := h
    rw [Bool.and_eq_true, Bool.and_eq_true] at h'
    have ih1 := roundTrip_val reg value h'.1.2
    have ih2 := roundTrip_val reg tail h'.2
    show (match deserializeObject reg (serializeObject value),
        deserializeObject reg (serializeObject tail) with
      | .ok v2, .ok t2 => Except.ok (DataVal.dfCons key v2 t2)
      | .error e, _ => Except.error e
      | .ok _, .error e => Except.error e) = Except.ok (DataVal.dfCons key value tail)
    rw [ih1, ih2]
  | .dobj fields =>
    have hf : goodData reg fields = true := h
    have ih := roundTrip_val reg fields hf
    show (match deserializeObject reg (serializeObject fields) with
      | .error e => Except.error e
      | .ok revived =>
        match lookupField revived "__money" with
        | some (.dbool true) =>
          match lookupField revived "amount", lookupField revived "currency" with
          | some (.dstr amountStr), some (.dstr code) =>
            match parseBigInt amountStr with
            | none => Except.error MoneyError.invalidAmount
            | some minor =>
              match Currency.ofCode reg code with
              | none => Except.error MoneyError.unknownCurrency
              | some c => Except.ok (DataVal.dmoney (Money.ofMinor minor c))
          | _, _ => Except.error MoneyError.invalidAmount
        | _ => Except.ok (DataVal.dobj revived)) = Except.ok (DataVal.dobj fields)
    rw [ih]
    dsimp only
    rw [goodData_lookup_money reg fields hf]
  | .dmoney m =>
    have hcur : Currency.ofCode reg m.currency.currencyCode = some m.currency := by
      have h' : (Currency.ofCode reg m.currency.currencyCode == some m.currency) = true := h
      exact eq_of_beq h'
    show (match parseBigInt (bigintToString m.amount) with
      | none => Except.error MoneyError.invalidAmount
      | some minor =>
        match Currency.ofCode reg m.currency.currencyCode with
        | none => Except.error MoneyError.unknownCurrency
        | some c => Except.ok (DataVal.dmoney (Money.ofMinor minor c))) =
      Except.ok (DataVal.dmoney m)
    rw [parseBigInt_bigintToString m.amount]
    dsimp only
    rw [hcur]
    rfl

/-- Claim C4: for every Amount whose currency is registered under its
own code, nested anywhere inside objects and arrays mixed with
non-Amount fields (none of which uses the reserved `__money` key),
`deserializeObject (serializeObject x)` reproduces the whole tree
exactly — in particular every embedded Amount comes back with precisely
its minor-unit integer (of any magnitude, carried as a numeral-safe
string) and its currency code. -/
theorem claim_C4_serialize_deserialize_roundtrip (reg : CurrencyRegistry) (v : DataVal)
    (h : goodData reg v = true) :
    deserializeObject reg (serializeObject v) = .ok v :=
  roundTrip_val reg v h

/-- Test registry for the round-trip witness. -/
def sampleRegistry : CurrencyRegistry := [("USD", usd), ("BHD", bhd)]

/-- A nested document: an object holding an Amount beyond the 2^53
float-safe range, an array mixing an Amount and a plain number, and a
plain string field. -/
def sampleDoc : DataVal :=
  .dobj (.dfCons "total" (.dmoney (Money.ofMinor 1152921504606846977 usd))
    (.dfCons "items" (.darr (.daCons (.dmoney (Money.ofMinor (-7) bhd))
      (.daCons (.dnum 3) .daNil)))
      (.dfCons "note" (.dstr "mixed") .dfNil)))

/-- Witness for C4 at `sampleDoc` over `sampleRegistry`. -/
theorem claim_C4_witness :
    goodData sampleRegistry sampleDoc = true ∧
      deserializeObject sampleRegistry (serializeObject sampleDoc) = .ok sampleDoc :=
  ⟨by decide, claim_C4_serialize_deserialize_roundtrip sampleRegistry sampleDoc (by decide)⟩
